import Mathlib

/-!
# Verification of `allocation.py`

A shallow embedding of the allocation pipeline of this repository
(`src/allocation.py`) together with proofs of its specified properties.

Modelling choices:

* A canonical date (`pd.Timestamp`) is a natural number; the parser for
  `YYYY-MM-DD` strings encodes year/month/day as `y*10000 + m*100 + d`,
  which is strictly monotone in the chronological order on such dates.
* Python `float` weights are modelled as `ℚ`; the decimal literals `0.2`,
  `0.8` of the source become the exact rationals `0.2`, `0.8`, and the
  division `1 / len(group)` becomes exact division in `ℚ`.
* A `pd.Series` with a (date, asset) `MultiIndex` is a list of
  `((date, asset), weight)` entries in index order.
* Exceptions (`NotImplementedError`, parse failures from `pd.to_datetime`,
  the `ValueError` that `pd.concat` raises on an empty collection of
  objects) are modelled with `Except Err`.
* `groupby(level=IDX_LVL_DATE).apply(_ew)` groups by the first index level
  with pandas' default `sort=True`, and since `_ew` returns a series with
  the group's own index, the result keeps the two-level (date, asset)
  index: groups are listed in ascending date order, each group keeping its
  original inner order.
-/

/-- Errors a pipeline call can raise. -/
inductive Err where
  /-- Failure of `pd.to_datetime` to parse a date string. -/
  | parseError (s : String)
  /-- Result of `raise NotImplementedError()`. -/
  | notImplementedError
  /-- The `ValueError` raised by `pd.concat` on an empty collection. -/
  | valueError
deriving DecidableEq, Repr

/-- A single date input: either a string (to be parsed) or an already
canonical date (`pd.Timestamp`), modelled as a natural number. -/
inductive DateInput where
  | str (s : String)
  | ts (d : Nat)
deriving DecidableEq, Repr

/-- The argument of `AllocationMixin.allocation`: a single date/date-string
or a collection of them. -/
inductive DatesInput where
  | single (d : DateInput)
  | coll (l : List DateInput)
deriving DecidableEq, Repr

/-- An Allocation Table: a series keyed by (date, asset) with rational
weights, in index order. -/
abbrev AllocTable : Type := List ((Nat × String) × ℚ)

/-- Decimal digit value of a character, if it is a digit. -/
def digitVal (c : Char) : Option Nat :=
  if c.isDigit then some (c.toNat - 48) else none

/-- Read a non-empty all-digit character list as a natural number. -/
def readNatDigits : List Char → Nat → Option Nat
  | [], acc => some acc
  | c :: cs, acc =>
    match digitVal c with
    | some v => readNatDigits cs (acc * 10 + v)
    | none => none

/-- Read a non-empty all-digit character list as a natural number. -/
def readNat (cs : List Char) : Option Nat :=
  match cs with
  | [] => none
  | _ => readNatDigits cs 0

/-- Split a character list into the chunks separated by `'-'`. -/
def splitDash : List Char → List (List Char)
  | [] => [[]]
  | c :: cs =>
    match splitDash cs with
    | [] => [[]]
    | g :: gs => if c = '-' then [] :: g :: gs else (c :: g) :: gs

/-- Parse a `YYYY-MM-DD` date string into its canonical encoding
`y*10000 + m*100 + d` (models `pd.to_datetime` on a date string). -/
def parseDateString (s : String) : Option Nat :=
  match splitDash s.data with
  | [ys, ms, ds] =>
    match readNat ys, readNat ms, readNat ds with
    | some y, some m, some d =>
      if 1 ≤ m ∧ m ≤ 12 ∧ 1 ≤ d ∧ d ≤ 31 then some (y * 10000 + m * 100 + d)
      else none
    | _, _, _ => none
  | _ => none

/-- `pd.to_datetime(d) if isinstance(d, str) else d` on one element. -/
def toDatetime (d : DateInput) : Except Err Nat :=
  match d with
  | .str s =>
    match parseDateString s with
    | some v => .ok v
    | none => .error (.parseError s)
  | .ts v => .ok v

/-- Model of the list comprehension
`[pd.to_datetime(d) if isinstance(d, str) else d for d in dates]`:
left to right, first failure aborts. -/
def toDatetimeList : List DateInput → Except Err (List Nat)
  | [] => .ok []
  | d :: l =>
    match toDatetime d with
    | .error e => .error e
    | .ok v =>
      match toDatetimeList l with
      | .error e => .error e
      | .ok vs => .ok (v :: vs)

/-- Model of `sorted(set(dates))`: the ascending duplicate-free list of the elements. -/
def sortedSet (l : List Nat) : List Nat :=
  List.insertionSort (· ≤ ·) l.dedup

/-- The date normalization performed by `AllocationMixin.allocation`:
wrap a single date into a list, convert strings to dates, then
`sorted(set(dates))`. -/
def normalizeDates (input : DatesInput) : Except Err (List Nat) :=
  let l : List DateInput :=
    match input with
    | .single d => [d]
    | .coll l => l
  match toDatetimeList l with
  | .error e => .error e
  | .ok vs => .ok (sortedSet vs)

/-- A pipeline stage: its behaviour is its `_allocation` method, a function
from a canonical date list to an Allocation Table or an error. -/
structure Stage where
  alloc : List Nat → Except Err AllocTable

/-- Entry point `AllocationMixin.allocation`: normalize the dates, then call the
stage's `_allocation`. -/
def allocation (st : Stage) (input : DatesInput) : Except Err AllocTable :=
  match normalizeDates input with
  | .error e => .error e
  | .ok dates => st.alloc dates

/-- Stage: a bare `AllocationMixin` whose `_allocation` was never overridden:
it raises `NotImplementedError`. -/
def AllocationMixinBase : Stage :=
  ⟨fun _ => .error .notImplementedError⟩

/-- Model of `pd.concat` on a date-keyed dict of one-level series: raises
`ValueError` when the dict is empty, otherwise produces the (date, asset)
keyed table in dict order. -/
def concatKeyed (pairs : List (Nat × List (String × ℚ))) :
    Except Err AllocTable :=
  match pairs with
  | [] => .error .valueError
  | _ => .ok (pairs.flatMap fun p => p.2.map fun aw => ((p.1, aw.1), aw.2))

/-- The dict comprehension `{date: self._one_allocation(date) for date in
dates}`: evaluated left to right, first failure aborts. -/
def oneAllocationRun (f : Nat → Except Err (List (String × ℚ))) :
    List Nat → Except Err (List (Nat × List (String × ℚ)))
  | [] => .ok []
  | d :: ds =>
    match f d with
    | .error e => .error e
    | .ok s =>
      match oneAllocationRun f ds with
      | .error e => .error e
      | .ok rest => .ok ((d, s) :: rest)

/-- Mixin `OneAllocationMixin`: its `_allocation` builds the per-date dict by
calling `_one_allocation` on each date and hands it to `pd.concat`. -/
def OneAllocationMixin (f : Nat → Except Err (List (String × ℚ))) : Stage :=
  ⟨fun dates =>
    match oneAllocationRun f dates with
    | .error e => .error e
    | .ok pairs => concatKeyed pairs⟩

/-- Stage: a `OneAllocationMixin` whose `_one_allocation` was never overridden:
each per-date call raises `NotImplementedError`. -/
def OneAllocationMixinBase : Stage :=
  OneAllocationMixin fun _ => .error .notImplementedError

/-- Method `OneStaticAllocation._one_allocation`:
`pd.Series({"a": 0.2, "b": 0.8})` for every date. -/
def one_allocation_static (_ : Nat) : Except Err (List (String × ℚ)) :=
  .ok [("a", 0.2), ("b", 0.8)]

/-- Stage `OneStaticAllocation`: the constant allocation stage. -/
def OneStaticAllocation : Stage :=
  OneAllocationMixin one_allocation_static

/-- The date (first index level) of a table entry. -/
def dateOf (e : (Nat × String) × ℚ) : Nat := e.1.1

/-- Inner function `_ew`: replace every weight of a group by `1 / len(group)`, keeping the
group's index. -/
def ewGroup (group : AllocTable) : AllocTable :=
  group.map fun e => (e.1, 1 / (group.length : ℚ))

/-- Model of `prev.groupby(level=IDX_LVL_DATE).apply(_ew)`: group the entries by
date (groups in ascending date order, pandas' default `sort=True`), apply
`_ew` to each group, and stitch the groups back with their original
(date, asset) index. -/
def groupbyApplyEw (prev : AllocTable) : AllocTable :=
  (sortedSet (prev.map dateOf)).flatMap fun d =>
    ewGroup (prev.filter fun e => dateOf e == d)

/-- Combinator `EqualWeight`: holds its upstream stage; its `_allocation` requests the
upstream table through the upstream's full `allocation` entry point, then
rewrites it group by group. -/
def EqualWeight (previous_step : Stage) : Stage :=
  ⟨fun dates =>
    match allocation previous_step (.coll (dates.map .ts)) with
    | .error e => .error e
    | .ok prev => .ok (groupbyApplyEw prev)⟩

/-- Normalized dates are sorted ascending. -/
lemma sortedSet_sorted (l : List Nat) : List.Sorted (· ≤ ·) (sortedSet l) :=
  List.sorted_insertionSort _ _

/-- Normalized dates are duplicate-free. -/
lemma sortedSet_nodup (l : List Nat) : (sortedSet l).Nodup :=
  (List.perm_insertionSort _ _).nodup_iff.mpr (List.nodup_dedup l)

/-- Normalization preserves membership. -/
lemma mem_sortedSet {x : Nat} {l : List Nat} : x ∈ sortedSet l ↔ x ∈ l := by
  unfold sortedSet
  rw [(List.perm_insertionSort _ _).mem_iff, List.mem_dedup]

/-- Normalized dates are strictly ascending. -/
lemma sortedSet_pairwise_lt (l : List Nat) : (sortedSet l).Pairwise (· < ·) :=
  ((sortedSet_sorted l).and (sortedSet_nodup l)).imp fun h =>
    lt_of_le_of_ne h.1 h.2

/-- Normalization fixes a strictly ascending list. -/
lemma sortedSet_eq_self {l : List Nat} (h : l.Pairwise (· < ·)) :
    sortedSet l = l := by
  unfold sortedSet
  rw [List.dedup_eq_self.mpr (h.imp fun hab => ne_of_lt hab)]
  exact List.Sorted.insertionSort_eq (h.imp fun hab => le_of_lt hab)

/-- Normalization depends only on the set of elements. -/
lemma sortedSet_eq_of_mem_iff {l₁ l₂ : List Nat} (h : ∀ x, x ∈ l₁ ↔ x ∈ l₂) :
    sortedSet l₁ = sortedSet l₂ := by
  apply List.eq_of_perm_of_sorted _ (sortedSet_sorted l₁) (sortedSet_sorted l₂)
  apply List.perm_of_nodup_nodup_toFinset_eq (sortedSet_nodup l₁)
    (sortedSet_nodup l₂)
  ext x
  simp only [List.mem_toFinset, mem_sortedSet]
  exact h x

/-- Converting a list of already canonical dates succeeds and is the
identity. -/
lemma toDatetimeList_ts (ds : List Nat) :
    toDatetimeList (ds.map .ts) = .ok ds := by
  induction ds with
  | nil => rfl
  | cons d rest ih => simp [toDatetimeList, toDatetime, ih]

/-- Normalizing a collection of canonical dates sorts and dedups them. -/
lemma normalizeDates_ts (ds : List Nat) :
    normalizeDates (.coll (ds.map .ts)) = .ok (sortedSet ds) := by
  simp [normalizeDates, toDatetimeList_ts]

/-- Normalizing an already canonical (strictly ascending) collection of
dates returns it unchanged. -/
lemma normalizeDates_canonical {ds : List Nat} (h : ds.Pairwise (· < ·)) :
    normalizeDates (.coll (ds.map .ts)) = .ok ds := by
  rw [normalizeDates_ts, sortedSet_eq_self h]

/-- C9: for every stage and every single date or date-string `d`, calling
`allocation` with the bare value `d` returns the same Allocation Table as
calling `allocation` with the one-element collection `[d]`. -/
theorem allocation_single_eq_singleton (st : Stage) (d : DateInput) :
    allocation st (.single d) = allocation st (.coll [d]) := rfl

/-- C2, evaluated at the failing input: on an empty date collection the
constant stage does not return an empty Allocation Table; `pd.concat` on
the empty per-date dict raises `ValueError`, and the Equal-Weight stage
wrapping it propagates that failure. -/
theorem empty_dates_raise_valueError :
    allocation OneStaticAllocation (.coll []) = .error .valueError ∧
    allocation (EqualWeight OneStaticAllocation) (.coll []) =
      .error .valueError :=
  ⟨rfl, rfl⟩

/-- C3: the demo's date collection `["2022-08-02", "2022-08-01"]` yields,
through `OneStaticAllocation`, the table over the two dates in ascending
order with `a ↦ 0.2, b ↦ 0.8` on each date, and through `EqualWeight` over
that stage the table with `a ↦ 0.5, b ↦ 0.5` on each date. -/
theorem demo_end_to_end :
    allocation OneStaticAllocation
        (.coll [.str "2022-08-02", .str "2022-08-01"]) =
      .ok [((20220801, "a"), 0.2), ((20220801, "b"), 0.8),
           ((20220802, "a"), 0.2), ((20220802, "b"), 0.8)] ∧
    allocation (EqualWeight OneStaticAllocation)
        (.coll [.str "2022-08-02", .str "2022-08-01"]) =
      .ok [((20220801, "a"), 0.5), ((20220801, "b"), 0.5),
           ((20220802, "a"), 0.5), ((20220802, "b"), 0.5)] := by
  constructor
  · rfl
  · have h : (1 : ℚ) / ((2 : Nat) : ℚ) = 0.5 := by norm_num
    have h2 : allocation (EqualWeight OneStaticAllocation)
        (.coll [.str "2022-08-02", .str "2022-08-01"]) =
      .ok [((20220801, "a"), 1 / ((2 : Nat) : ℚ)),
           ((20220801, "b"), 1 / ((2 : Nat) : ℚ)),
           ((20220802, "a"), 1 / ((2 : Nat) : ℚ)),
           ((20220802, "b"), 1 / ((2 : Nat) : ℚ))] := rfl
    rw [h2, h]

/-- Membership in an equal-weighted group. -/
lemma mem_ewGroup {g : AllocTable} {e : (Nat × String) × ℚ} :
    e ∈ ewGroup g ↔ ∃ x ∈ g, e = (x.1, 1 / (g.length : ℚ)) := by
  simp only [ewGroup, List.mem_map, eq_comm]

/-- Characterization of the entries of the equal-weight transform: the
keys are exactly the keys of the input table, and the weight attached to a
key is one over the number of input entries sharing its date. -/
lemma mem_groupbyApplyEw {t : AllocTable} {k : Nat × String} {w : ℚ} :
    (k, w) ∈ groupbyApplyEw t ↔
      (∃ w', (k, w') ∈ t) ∧
        w = 1 / (((t.filter fun e => dateOf e == k.1).length : Nat) : ℚ) := by
  constructor
  · intro hmem
    unfold groupbyApplyEw at hmem
    rw [List.mem_flatMap] at hmem
    obtain ⟨d, _, hin⟩ := hmem
    rw [mem_ewGroup] at hin
    obtain ⟨x, hx, hxe⟩ := hin
    rw [List.mem_filter] at hx
    have hdx : dateOf x = d := by simpa using hx.2
    have hk : k = x.1 := congrArg Prod.fst hxe
    have hd : k.1 = d := by rw [hk]; exact hdx
    subst hd
    refine ⟨⟨x.2, ?_⟩, ?_⟩
    · rw [hk]; exact hx.1
    · have := congrArg Prod.snd hxe
      simpa using this
  · rintro ⟨⟨w', hw'⟩, hw⟩
    unfold groupbyApplyEw
    rw [List.mem_flatMap]
    refine ⟨k.1, ?_, ?_⟩
    · rw [mem_sortedSet, List.mem_map]
      exact ⟨(k, w'), hw', rfl⟩
    · rw [mem_ewGroup]
      refine ⟨(k, w'), ?_, ?_⟩
      · rw [List.mem_filter]
        exact ⟨hw', by simp [dateOf]⟩
      · rw [hw]

/-- Unfolding a successful upstream call inside `EqualWeight._allocation`. -/
lemma equalWeight_alloc_ok {up : Stage} {ds : List Nat} {t : AllocTable}
    (hup : allocation up (.coll (ds.map .ts)) = .ok t) :
    (EqualWeight up).alloc ds = .ok (groupbyApplyEw t) := by
  simp only [EqualWeight]
  rw [hup]

/-- C1: for every upstream stage, every date sequence and every date with
`n > 0` assets in the upstream stage's Allocation Table, the Equal-Weight
transform outputs that upstream table rewritten group by group; every
asset of that date appears in the output with weight exactly `1/n`, and
the set of assets present for that date is exactly that of the upstream
table. -/
theorem equalWeight_weights_one_over_n (up : Stage) (ds : List Nat)
    (t : AllocTable) (hup : allocation up (.coll (ds.map .ts)) = .ok t)
    (d : Nat) (_hpos : 0 < (t.filter fun e => dateOf e == d).length) :
    (EqualWeight up).alloc ds = .ok (groupbyApplyEw t) ∧
    (∀ a w', ((d, a), w') ∈ t →
      ((d, a), 1 / (((t.filter fun e => dateOf e == d).length : Nat) : ℚ)) ∈
        groupbyApplyEw t) ∧
    (∀ a, (∃ w, ((d, a), w) ∈ groupbyApplyEw t) ↔ ∃ w, ((d, a), w) ∈ t) := by
  refine ⟨equalWeight_alloc_ok hup, ?_, ?_⟩
  · intro a w' hw'
    exact mem_groupbyApplyEw.mpr ⟨⟨w', hw'⟩, rfl⟩
  · intro a
    constructor
    · rintro ⟨w, hw⟩
      exact (mem_groupbyApplyEw.mp hw).1
    · rintro ⟨w, hw⟩
      exact ⟨_, mem_groupbyApplyEw.mpr ⟨⟨w, hw⟩, rfl⟩⟩

/-- Witness for C1 at the constant upstream stage, date sequence `[0]`
and date `0` with its two upstream assets. -/
theorem equalWeight_weights_one_over_n_witness :
    (EqualWeight OneStaticAllocation).alloc [0] =
      .ok (groupbyApplyEw [((0, "a"), 0.2), ((0, "b"), 0.8)]) ∧
    (∀ a w',
      ((0, a), w') ∈ ([((0, "a"), 0.2), ((0, "b"), 0.8)] : AllocTable) →
      ((0, a), 1 /
          (((([((0, "a"), 0.2), ((0, "b"), 0.8)] : AllocTable).filter
              fun e => dateOf e == 0).length : Nat) : ℚ)) ∈
        groupbyApplyEw [((0, "a"), 0.2), ((0, "b"), 0.8)]) ∧
    (∀ a, (∃ w, ((0, a), w) ∈
        groupbyApplyEw [((0, "a"), 0.2), ((0, "b"), 0.8)]) ↔
      ∃ w, ((0, a), w) ∈ ([((0, "a"), 0.2), ((0, "b"), 0.8)] : AllocTable)) :=
  equalWeight_weights_one_over_n OneStaticAllocation [0]
    [((0, "a"), 0.2), ((0, "b"), 0.8)] (by rfl) 0 (by decide)

/-- C7: for every upstream stage and date sequence on which the upstream
succeeds, the Equal-Weight transform does not fail; a date with zero
assets in the upstream table has zero assets in the output, and every key
of the output is a key of the upstream table (no assets are invented). -/
theorem equalWeight_zero_assets_safe (up : Stage) (ds : List Nat)
    (t : AllocTable) (hup : allocation up (.coll (ds.map .ts)) = .ok t)
    (d : Nat) (hzero : t.filter (fun e => dateOf e == d) = []) :
    (EqualWeight up).alloc ds = .ok (groupbyApplyEw t) ∧
    (groupbyApplyEw t).filter (fun e => dateOf e == d) = [] ∧
    ∀ e ∈ groupbyApplyEw t, e.1 ∈ t.map Prod.fst := by
  refine ⟨equalWeight_alloc_ok hup, ?_, ?_⟩
  · rw [List.filter_eq_nil_iff]
    rintro ⟨k, w⟩ hmem hpred
    obtain ⟨⟨w', hw'⟩, -⟩ := mem_groupbyApplyEw.mp hmem
    have hk : dateOf (k, w') = d := by simpa [dateOf] using hpred
    have : (k, w') ∈ t.filter (fun e => dateOf e == d) :=
      List.mem_filter.mpr ⟨hw', by simp [hk]⟩
    rw [hzero] at this
    exact absurd this (List.not_mem_nil _)
  · rintro ⟨k, w⟩ hmem
    obtain ⟨⟨w', hw'⟩, -⟩ := mem_groupbyApplyEw.mp hmem
    exact List.mem_map.mpr ⟨(k, w'), hw', rfl⟩

/-- Witness for C7 at the constant upstream stage, date sequence `[0]` and
the assetless date `1`. -/
theorem equalWeight_zero_assets_safe_witness :
    (EqualWeight OneStaticAllocation).alloc [0] =
      .ok (groupbyApplyEw [((0, "a"), 0.2), ((0, "b"), 0.8)]) ∧
    (groupbyApplyEw [((0, "a"), 0.2), ((0, "b"), 0.8)]).filter
      (fun e => dateOf e == 1) = [] ∧
    ∀ e ∈ groupbyApplyEw [((0, "a"), 0.2), ((0, "b"), 0.8)],
      e.1 ∈ ([((0, "a"), 0.2), ((0, "b"), 0.8)] : AllocTable).map Prod.fst :=
  equalWeight_zero_assets_safe OneStaticAllocation [0]
    [((0, "a"), 0.2), ((0, "b"), 0.8)] (by rfl) 1 (by rfl)

/-- C8: for every upstream stage and every input whose normalized date
sequence makes the upstream's `allocation` fail with error `e`, the
Equal-Weight stage's `allocation` fails with exactly the same error `e`
and produces no table. -/
theorem equalWeight_propagates_error (up : Stage) (input : DatesInput)
    (ds : List Nat) (e : Err) (hn : normalizeDates input = .ok ds)
    (hup : allocation up (.coll (ds.map .ts)) = .error e) :
    allocation (EqualWeight up) input = .error e := by
  unfold allocation at hup ⊢
  rw [hn]
  simp only [EqualWeight]
  unfold allocation
  rw [hup]

/-- Witness for C8: the Equal-Weight stage over a bare `AllocationMixin`
propagates its `NotImplementedError`. -/
theorem equalWeight_propagates_error_witness :
    allocation (EqualWeight AllocationMixinBase) (.coll [.ts 0]) =
      .error .notImplementedError :=
  equalWeight_propagates_error AllocationMixinBase (.coll [.ts 0]) [0]
    .notImplementedError (by rfl) (by rfl)

/-- A nonempty list normalizes to a nonempty list. -/
lemma sortedSet_ne_nil {ds : List Nat} (h : ds ≠ []) : sortedSet ds ≠ [] := by
  obtain ⟨d, rest, rfl⟩ := List.exists_cons_of_ne_nil h
  intro hc
  have hm : d ∈ sortedSet (d :: rest) :=
    mem_sortedSet.mpr (List.mem_cons_self d rest)
  rw [hc] at hm
  exact absurd hm (List.not_mem_nil d)

/-- On a nonempty date list, the unimplemented single-date stage fails at
the first per-date call. -/
lemma oneAllocationMixinBase_alloc {ds : List Nat} (h : ds ≠ []) :
    OneAllocationMixinBase.alloc ds = .error .notImplementedError := by
  obtain ⟨d, rest, rfl⟩ := List.exists_cons_of_ne_nil h
  rfl

/-- C6: on every non-empty canonical date sequence, invoking `allocation`
on a stage that overrides neither `_allocation` (bare `AllocationMixin`)
nor `_one_allocation` (bare `OneAllocationMixin`) fails with the
NotImplemented-class error. -/
theorem unimplemented_stage_raises (ds : List Nat) (h : ds ≠ []) :
    allocation AllocationMixinBase (.coll (ds.map .ts)) =
      .error .notImplementedError ∧
    allocation OneAllocationMixinBase (.coll (ds.map .ts)) =
      .error .notImplementedError := by
  constructor
  · unfold allocation
    rw [normalizeDates_ts]
    rfl
  · unfold allocation
    rw [normalizeDates_ts]
    exact oneAllocationMixinBase_alloc (sortedSet_ne_nil h)

/-- Witness for C6 at the date sequence `[0]`. -/
theorem unimplemented_stage_raises_witness :
    allocation AllocationMixinBase (.coll [.ts 0]) =
      .error .notImplementedError ∧
    allocation OneAllocationMixinBase (.coll [.ts 0]) =
      .error .notImplementedError :=
  unimplemented_stage_raises [0] (by decide)

/-- C10: date normalization is idempotent — a strictly ascending list of
canonical dates is returned unchanged — and consequently the Equal-Weight
stage's `_allocation` hands its upstream stage's computation exactly its
own date sequence: it equals the upstream `_allocation` on the same
sequence followed by the pure groupwise rewrite. -/
theorem normalization_idempotent (st : Stage) (ds : List Nat)
    (h : ds.Pairwise (· < ·)) :
    normalizeDates (.coll (ds.map .ts)) = .ok ds ∧
    (EqualWeight st).alloc ds =
      Except.map groupbyApplyEw (st.alloc ds) := by
  refine ⟨normalizeDates_canonical h, ?_⟩
  have h1 : allocation st (.coll (ds.map .ts)) = st.alloc ds := by
    unfold allocation
    rw [normalizeDates_canonical h]
  simp only [EqualWeight]
  rw [h1]
  cases st.alloc ds <;> rfl

/-- Witness for C10 at the constant stage and the demo's two dates. -/
theorem normalization_idempotent_witness :
    normalizeDates (.coll ([20220801, 20220802].map .ts)) =
      .ok [20220801, 20220802] ∧
    (EqualWeight OneStaticAllocation).alloc [20220801, 20220802] =
      Except.map groupbyApplyEw
        (OneStaticAllocation.alloc [20220801, 20220802]) :=
  normalization_idempotent OneStaticAllocation [20220801, 20220802]
    (by decide)

/-- The fixed per-date row of the constant stage, tagged with its date. -/
def staticRow (d : Nat) : AllocTable := [((d, "a"), 0.2), ((d, "b"), 0.8)]

/-- Running the per-date dict comprehension of the constant stage. -/
lemma oneAllocationRun_static (ds : List Nat) :
    oneAllocationRun one_allocation_static ds =
      .ok (ds.map fun d => (d, [("a", (0.2 : ℚ)), ("b", 0.8)])) := by
  induction ds with
  | nil => rfl
  | cons d rest ih => simp [oneAllocationRun, one_allocation_static, ih]

/-- Flattening the constant stage's per-date dict. -/
lemma flatMap_staticRow (ds : List Nat) :
    (ds.map fun d => (d, [("a", (0.2 : ℚ)), ("b", 0.8)])).flatMap
      (fun p => p.2.map fun aw => ((p.1, aw.1), aw.2)) =
      ds.flatMap staticRow := by
  induction ds with
  | nil => rfl
  | cons d rest ih => simp [staticRow, ih]

/-- On a nonempty date list the constant stage returns one `staticRow`
per date. -/
lemma oneStatic_alloc {ds : List Nat} (h : ds ≠ []) :
    OneStaticAllocation.alloc ds = .ok (ds.flatMap staticRow) := by
  obtain ⟨d, rest, rfl⟩ := List.exists_cons_of_ne_nil h
  simp only [OneStaticAllocation, OneAllocationMixin]
  rw [oneAllocationRun_static, ← flatMap_staticRow]
  rfl

/-- Filtering a static row at its own date keeps it whole. -/
lemma filter_staticRow_self (d : Nat) :
    (staticRow d).filter (fun e => dateOf e == d) = staticRow d := by
  simp [staticRow, dateOf]

/-- Filtering a static row at a different date leaves nothing. -/
lemma filter_staticRow_ne {d d' : Nat} (h : d' ≠ d) :
    (staticRow d').filter (fun e => dateOf e == d) = [] := by
  simp [staticRow, dateOf, h]

/-- A date absent from the requested list has no entries in the constant
stage's table. -/
lemma filter_flatMap_staticRow_not_mem {ds : List Nat} {d : Nat}
    (h : d ∉ ds) :
    (ds.flatMap staticRow).filter (fun e => dateOf e == d) = [] := by
  induction ds with
  | nil => rfl
  | cons d' rest ih =>
    have hne : d' ≠ d := by
      intro hEq
      subst hEq
      exact h (List.mem_cons_self _ _)
    have hrest : d ∉ rest := fun hm => h (List.mem_cons_of_mem _ hm)
    simp only [List.flatMap_cons, List.filter_append]
    rw [filter_staticRow_ne hne, ih hrest]
    rfl

/-- A requested date's entries in the constant stage's table are exactly
its static row. -/
lemma filter_flatMap_staticRow_mem {ds : List Nat} (hnd : ds.Nodup)
    {d : Nat} (hd : d ∈ ds) :
    (ds.flatMap staticRow).filter (fun e => dateOf e == d) = staticRow d := by
  induction ds with
  | nil => cases hd
  | cons d' rest ih =>
    obtain ⟨hnotin, hndr⟩ := List.nodup_cons.mp hnd
    simp only [List.flatMap_cons, List.filter_append]
    rcases List.mem_cons.mp hd with rfl | hmem
    · rw [filter_staticRow_self, filter_flatMap_staticRow_not_mem hnotin,
          List.append_nil]
    · have hne : d' ≠ d := by
        intro hEq
        subst hEq
        exact hnotin hmem
      rw [filter_staticRow_ne hne, ih hndr hmem, List.nil_append]

/-- C5: for every nonempty duplicate-free requested date sequence, the
constant stage returns one row per requested date, each tagged with its
date, and the per-date asset-weight mapping is the same fixed mapping
`a ↦ 0.2, b ↦ 0.8` for every requested date. -/
theorem oneStatic_constant_mapping (dates : List Nat) (hne : dates ≠ [])
    (hnd : dates.Nodup) :
    OneStaticAllocation.alloc dates = .ok (dates.flatMap staticRow) ∧
    ∀ d ∈ dates,
      (dates.flatMap staticRow).filter (fun e => dateOf e == d) =
        staticRow d :=
  ⟨oneStatic_alloc hne, fun _ hd => filter_flatMap_staticRow_mem hnd hd⟩

/-- Witness for C5 at the date sequence `[1, 2]`. -/
theorem oneStatic_constant_mapping_witness :
    OneStaticAllocation.alloc [1, 2] = .ok ([1, 2].flatMap staticRow) ∧
    ∀ d ∈ [1, 2],
      ([1, 2].flatMap staticRow).filter (fun e => dateOf e == d) =
        staticRow d :=
  oneStatic_constant_mapping [1, 2] (by decide) (by decide)


/-- Removal of duplicates from a list, keeping first occurrences (the
statement-side reading of "the same collection with duplicates removed"). -/
def removeDup {α : Type} [DecidableEq α] : List α → List α
  | [] => []
  | a :: l => a :: removeDup (l.filter fun b => decide (b ≠ a))
termination_by l => l.length
decreasing_by
  simp only [List.length_cons]
  exact Nat.lt_succ_of_le (List.length_filter_le _ _)

/-- Duplicate removal on the empty list. -/
lemma removeDup_nil {α : Type} [DecidableEq α] :
    removeDup ([] : List α) = [] := by
  simp [removeDup]

/-- Duplicate removal keeps the head and recurses on the tail with the
head's copies dropped. -/
lemma removeDup_cons {α : Type} [DecidableEq α] (a : α) (l : List α) :
    removeDup (a :: l) = a :: removeDup (l.filter fun b => decide (b ≠ a)) := by
  simp [removeDup]

/-- Behavioural equivalence of two normalization results: identical
errors, or successes with the same set of dates. -/
def exceptEquiv (r₁ r₂ : Except Err (List Nat)) : Prop :=
  match r₁, r₂ with
  | .error e₁, .error e₂ => e₁ = e₂
  | .ok v₁, .ok v₂ => ∀ x, x ∈ v₁ ↔ x ∈ v₂
  | _, _ => False

/-- Reflexivity of `exceptEquiv`. -/
lemma exceptEquiv_refl (r : Except Err (List Nat)) : exceptEquiv r r := by
  cases r <;> simp [exceptEquiv]

/-- Transitivity of `exceptEquiv`. -/
lemma exceptEquiv_trans {r₁ r₂ r₃ : Except Err (List Nat)}
    (h₁ : exceptEquiv r₁ r₂) (h₂ : exceptEquiv r₂ r₃) :
    exceptEquiv r₁ r₃ := by
  cases r₁ <;> cases r₂ <;> cases r₃ <;>
    simp only [exceptEquiv] at h₁ h₂ ⊢
  · exact h₁.trans h₂
  · exact fun x => (h₁ x).trans (h₂ x)

/-- Consing a common head preserves `exceptEquiv`. -/
lemma exceptEquiv_consV (v : Nat) {r₁ r₂ : Except Err (List Nat)}
    (h : exceptEquiv r₁ r₂) :
    exceptEquiv (r₁.map fun l => v :: l) (r₂.map fun l => v :: l) := by
  cases r₁ <;> cases r₂ <;>
    simp only [exceptEquiv, Except.map, List.mem_cons] at h ⊢
  · exact h
  · exact fun x => by rw [h x]

/-- Duplicating the head date does not change the set of dates. -/
lemma exceptEquiv_dup_head (v : Nat) (r : Except Err (List Nat)) :
    exceptEquiv ((r.map fun l => v :: l).map fun l => v :: l)
      (r.map fun l => v :: l) := by
  cases r <;> simp only [exceptEquiv, Except.map, List.mem_cons]
  intro x
  tauto

/-- Inserting a common second element under a common head preserves
`exceptEquiv`. -/
lemma exceptEquiv_insert_second (v w : Nat) {r₁ r₂ : Except Err (List Nat)}
    (h : exceptEquiv (r₁.map fun l => v :: l) (r₂.map fun l => v :: l)) :
    exceptEquiv ((r₁.map fun l => w :: l).map fun l => v :: l)
      ((r₂.map fun l => w :: l).map fun l => v :: l) := by
  cases r₁ <;> cases r₂ <;>
    simp only [exceptEquiv, Except.map, List.mem_cons] at h ⊢
  · exact h
  · intro x
    have hx := h x
    tauto

/-- Unfolding the date conversion on a successfully converted head. -/
lemma toDatetimeList_cons_ok {b : DateInput} {v : Nat}
    (hb : toDatetime b = .ok v) (l : List DateInput) :
    toDatetimeList (b :: l) = (toDatetimeList l).map fun vs => v :: vs := by
  simp only [toDatetimeList, hb]
  cases toDatetimeList l <;> rfl

/-- Unfolding the date conversion on a failing head. -/
lemma toDatetimeList_cons_error {b : DateInput} {e : Err}
    (hb : toDatetime b = .error e) (l : List DateInput) :
    toDatetimeList (b :: l) = .error e := by
  simp only [toDatetimeList, hb]

/-- Filtering away a value drops a head equal to it. -/
lemma filter_ne_cons_self {α : Type} [DecidableEq α] (a : α) (l : List α) :
    (a :: l).filter (fun b => decide (b ≠ a)) =
      l.filter (fun b => decide (b ≠ a)) := by
  simp [List.filter_cons]

/-- Filtering away a value keeps a head different from it. -/
lemma filter_ne_cons_of_ne {α : Type} [DecidableEq α] {b a : α} (h : b ≠ a)
    (l : List α) :
    (b :: l).filter (fun c => decide (c ≠ a)) =
      b :: l.filter (fun c => decide (c ≠ a)) := by
  simp [List.filter_cons, h]

/-- Dropping the later duplicates of an already-converted head keeps the
conversion of the remaining inputs behaviourally equivalent. -/
lemma toDatetimeList_filter_head {a : DateInput} {v : Nat}
    (ha : toDatetime a = .ok v) (l : List DateInput) :
    exceptEquiv ((toDatetimeList l).map fun vs => v :: vs)
      ((toDatetimeList (l.filter fun b => decide (b ≠ a))).map
        fun vs => v :: vs) := by
  induction l with
  | nil => exact exceptEquiv_refl _
  | cons b rest ih =>
    by_cases hba : b = a
    · subst hba
      rw [filter_ne_cons_self, toDatetimeList_cons_ok ha]
      exact exceptEquiv_trans (exceptEquiv_dup_head v (toDatetimeList rest)) ih
    · rw [filter_ne_cons_of_ne hba]
      cases hb : toDatetime b with
      | error e =>
        rw [toDatetimeList_cons_error hb, toDatetimeList_cons_error hb]
        exact exceptEquiv_refl _
      | ok w =>
        rw [toDatetimeList_cons_ok hb, toDatetimeList_cons_ok hb]
        exact exceptEquiv_insert_second v w ih

/-- Conversion of a list and of the same list with duplicates removed are
behaviourally equivalent (bounded-length induction). -/
lemma toDatetimeList_removeDup_aux :
    ∀ (n : Nat) (l : List DateInput), l.length ≤ n →
      exceptEquiv (toDatetimeList l) (toDatetimeList (removeDup l)) := by
  intro n
  induction n with
  | zero =>
    intro l hl
    have hnil : l = [] := List.eq_nil_of_length_eq_zero (Nat.le_zero.mp hl)
    subst hnil
    rw [removeDup_nil]
    exact exceptEquiv_refl _
  | succ n ih =>
    intro l hl
    cases l with
    | nil =>
      rw [removeDup_nil]
      exact exceptEquiv_refl _
    | cons a rest =>
      rw [removeDup_cons]
      cases ha : toDatetime a with
      | error e =>
        rw [toDatetimeList_cons_error ha, toDatetimeList_cons_error ha]
        exact exceptEquiv_refl _
      | ok v =>
        rw [toDatetimeList_cons_ok ha, toDatetimeList_cons_ok ha]
        have hlen : (rest.filter fun b => decide (b ≠ a)).length ≤ n :=
          le_trans (List.length_filter_le _ _)
            (Nat.le_of_succ_le_succ hl)
        exact exceptEquiv_trans (toDatetimeList_filter_head ha rest)
          (exceptEquiv_consV v (ih _ hlen))

/-- Conversion of a list and of the same list with duplicates removed are
behaviourally equivalent. -/
lemma toDatetimeList_removeDup (l : List DateInput) :
    exceptEquiv (toDatetimeList l) (toDatetimeList (removeDup l)) :=
  toDatetimeList_removeDup_aux l.length l le_rfl

/-- Unfolding date normalization on a collection. -/
lemma normalizeDates_coll (l : List DateInput) :
    normalizeDates (.coll l) =
      match toDatetimeList l with
      | .error e => .error e
      | .ok vs => .ok (sortedSet vs) := rfl

/-- Behaviourally equivalent conversions yield identical `allocation`
results on every stage. -/
lemma allocation_congr_exceptEquiv (st : Stage) {l₁ l₂ : List DateInput}
    (h : exceptEquiv (toDatetimeList l₁) (toDatetimeList l₂)) :
    allocation st (.coll l₁) = allocation st (.coll l₂) := by
  unfold allocation
  rw [normalizeDates_coll, normalizeDates_coll]
  cases h₁ : toDatetimeList l₁ with
  | error e₁ =>
    cases h₂ : toDatetimeList l₂ with
    | error e₂ =>
      rw [h₁, h₂] at h
      simp only [exceptEquiv] at h
      rw [h]
    | ok v₂ =>
      rw [h₁, h₂] at h
      simp only [exceptEquiv] at h
  | ok v₁ =>
    cases h₂ : toDatetimeList l₂ with
    | error e₂ =>
      rw [h₁, h₂] at h
      simp only [exceptEquiv] at h
    | ok v₂ =>
      rw [h₁, h₂] at h
      simp only [exceptEquiv] at h
      show st.alloc (sortedSet v₁) = st.alloc (sortedSet v₂)
      rw [sortedSet_eq_of_mem_iff h]

/-- The canonical date sequence a call's input normalizes to (empty when
normalization fails). -/
def normalizedOf (input : DatesInput) : List Nat :=
  match normalizeDates input with
  | .ok ds => ds
  | .error _ => []

/-- C4: for every stage, `allocation` on a date collection equals
`allocation` on the same collection with duplicates removed, and the date
sequence handed to the stage's computation is strictly ascending — sorted
and duplicate-free — whatever the input's order or duplication. -/
theorem allocation_dedup_sorted (st : Stage) (l : List DateInput) :
    allocation st (.coll l) = allocation st (.coll (removeDup l)) ∧
    (normalizedOf (.coll l)).Pairwise (· < ·) := by
  refine ⟨allocation_congr_exceptEquiv st (toDatetimeList_removeDup l), ?_⟩
  unfold normalizedOf
  rw [normalizeDates_coll]
  cases toDatetimeList l with
  | error e => exact List.Pairwise.nil
  | ok vs => exact sortedSet_pairwise_lt vs
